import Mathlib

/-!
# certmon: certificate expiry monitor

A shallow embedding of `main.go` (package `main` of certmon) and the properties of
its certificate inspection, host normalisation, host-list loading and bounded
scheduler.

Conventions of the embedding:

* a Go `string` is a Lean `String` (the text is taken to be valid UTF-8);
* a `time.Time` is an `Int`: nanoseconds since the zero time (January 1, year 1,
  00:00:00 UTC); `After` is `>` and `Add` is `+`, which is what Go computes as long
  as the second counter of `time.Time` does not saturate (hundreds of billions of
  years away from any certificate date);
* a `time.Duration` is a signed 64-bit nanosecond count, arithmetic wraps modulo `2^64`;
* the network, the clock and the `humanize` library are inputs (`World`).
-/

namespace Certmon

/-! ## Errors -/

/-- Go `error` values that reach `main.go`. The two package-level sentinels are
compared by identity in `f`; every error coming from `net`, `crypto/tls` or `os`
is a different value and is kept with its message. -/
inductive GoError where
  | errExpired
  | errAboutToExpire
  | ErrTooLong
  | other (msg : String)
  deriving DecidableEq, Repr

/-- The `Error()` text of an error value. -/
def GoError.Error : GoError → String
  | .errExpired => "expired"
  | .errAboutToExpire => "expiring in"
  | .ErrTooLong => "bufio.Scanner: token too long"
  | .other msg => msg

/-! ## Time -/

/-- A `time.Time`, in nanoseconds since the zero time. -/
abbrev Time := Int

/-- A `time.Duration`, in nanoseconds (a signed 64-bit integer). -/
abbrev Duration := Int

/-- Two-complement wrapping of an integer into the `int64` range. -/
def wrapInt64 (x : Int) : Int := (x + 2 ^ 63) % 2 ^ 64 - 2 ^ 63

/-- The constant `time.Hour`. -/
def Hour : Duration := 3600000000000

/-- The zero value of `time.Time` (`var expiry time.Time`). -/
def zeroTime : Time := 0

/-- The method `t.After(u)`. -/
def After (t u : Time) : Bool := decide (t > u)

/-- The method `t.Add(d)`. -/
def Add (t : Time) (d : Duration) : Time := t + d

/-- The expression `time.Hour * 24 * time.Duration(*thresholdDuration)` of line 99:
an `int64` product, wrapping on overflow. -/
def thresholdNanos (thresholdDuration : Int) : Duration :=
  wrapInt64 (Hour * 24 * wrapInt64 thresholdDuration)

/-! ## Strings -/

/-- The function `strings.Contains(s, substr)` on character lists. -/
def containsChars : List Char → List Char → Bool
  | [], substr => substr.isEmpty
  | c :: cs, substr => substr.isPrefixOf (c :: cs) || containsChars cs substr

/-- The function `strings.Contains`. -/
def stringsContains (s substr : String) : Bool := containsChars s.data substr.data

/-! ## Certificate inspection -/

/-- The two fields of `x509.Certificate` that `checkCertificate` reads. -/
structure Certificate where
  IsCA : Bool
  NotAfter : Time
  deriving DecidableEq, Repr

/-- A TLS connection as `checkCertificate` sees it: the result of `conn.Handshake()`
and `conn.ConnectionState().PeerCertificates`. -/
structure Conn where
  handshakeErr : Option String
  PeerCertificates : List Certificate

/-- Everything outside the program that one call of `checkCertificate` consults:
`dial addr` is the outcome of `tls.DialWithDialer(dialer, "tcp", addr, nil)`, an error
message (no route, timeout, failed handshake or chain verification) or a connection;
`now k` is the value of the `k`-th call of `time.Now()` made during the call, and
`humanize e n` is the text `humanize.Time(e)` builds when its own `time.Now()`
returns `n`. -/
structure World where
  dial : String → Except String Conn
  now : Nat → Time
  humanize : Time → Time → String

/-- Lines 76-78 of `checkCertificate`: the address handed to the dialer. -/
def dialAddress (host : String) : String :=
  if !stringsContains host ":" then host ++ ":443" else host

/-- Lines 90-103 of `checkCertificate`: the loop over the peer certificates.
`expiry` is the current value of the variable `expiry`, `k` the number of clock
readings made so far; the result is the final `expiry`, the returned error and the
number of clock readings. -/
def certLoop (now : Nat → Time) (threshold : Duration) :
    List Certificate → Time → Nat → Time × Option GoError × Nat
  | [], expiry, k => (expiry, none, k)
  | cert :: rest, expiry, k =>
    if cert.IsCA then certLoop now threshold rest expiry k
    else
      if After (now k) cert.NotAfter then
        (cert.NotAfter, some .errExpired, k + 1)
      else if After (Add (now (k + 1)) threshold) cert.NotAfter then
        (cert.NotAfter, some .errAboutToExpire, k + 2)
      else certLoop now threshold rest cert.NotAfter (k + 2)

/-- The function `checkCertificate`; `thresholdDuration` is the value of the `-d` flag. -/
def checkCertificate (w : World) (thresholdDuration : Int) (host : String) :
    String × Option GoError :=
  match w.dial (dialAddress host) with
  | .error e => ("", some (.other e))
  | .ok conn =>
    match conn.handshakeErr with
    | some e => ("", some (.other e))
    | none =>
      match certLoop w.now (thresholdNanos thresholdDuration) conn.PeerCertificates zeroTime 0 with
      | (expiry, err, k) => (w.humanize expiry (w.now k), err)

/-- The four outcomes that the `switch err` of `f` tells apart. -/
inductive Classification where
  | Expired
  | ExpiringSoon
  | Healthy
  | Error
  deriving DecidableEq, Repr

/-- The case analysis of the `switch err` in `f` (lines 57-70). -/
def classOf : Option GoError → Classification
  | some .errExpired => .Expired
  | some .errAboutToExpire => .ExpiringSoon
  | none => .Healthy
  | some _ => .Error

/-! ## Host list loading -/

/-- The predicate `unicode.IsSpace`, which `strings.TrimSpace` trims by. -/
def isSpace (c : Char) : Bool :=
  let n := c.toNat
  n == 0x09 || n == 0x0A || n == 0x0B || n == 0x0C || n == 0x0D || n == 0x20 ||
  n == 0x85 || n == 0xA0 || n == 0x1680 || (0x2000 ≤ n && n ≤ 0x200A) ||
  n == 0x2028 || n == 0x2029 || n == 0x202F || n == 0x205F || n == 0x3000

/-- The function `strings.TrimSpace`. -/
def TrimSpace (s : String) : String :=
  ⟨(s.data.dropWhile isSpace).rdropWhile isSpace⟩

/-- The function `strings.HasPrefix(s, p)`. -/
def stringsHasPrefix (s p : String) : Bool := p.data.isPrefixOf s.data

/-- The constant `bufio.MaxScanTokenSize`: the largest buffer a `bufio.Scanner` allocates. -/
def MaxScanTokenSize : Nat := 64 * 1024

/-- Length in bytes of the UTF-8 encoding of a character list. -/
def byteLen (cs : List Char) : Nat := (cs.map Char.utf8Size).sum

/-- The helper `dropCR` of `bufio.ScanLines`: one trailing carriage return is removed. -/
def dropCR (data : List Char) : List Char :=
  if data.getLast? = some '\r' then data.dropLast else data

/-- A `bufio.Scanner` with the default split function `bufio.ScanLines` run over the
rest `data` of the file while `cur` holds the bytes of the line read so far: the
tokens that successive `scanner.Scan()` calls deliver and the final `scanner.Err()`.
A line is cut at `'\n'`; an unterminated last line is delivered when it is not empty;
a line that does not fit the buffer together with its terminator stops the scan
with `bufio.ErrTooLong`. -/
def scanFrom : List Char → List Char → List String × Option GoError
  | [], cur =>
    if cur.isEmpty then ([], none)
    else if MaxScanTokenSize ≤ byteLen cur then ([], some .ErrTooLong)
    else ([⟨dropCR cur⟩], none)
  | c :: cs, cur =>
    if c = '\n' then
      if MaxScanTokenSize ≤ byteLen cur then ([], some .ErrTooLong)
      else ((⟨dropCR cur⟩ : String) :: (scanFrom cs []).1, (scanFrom cs []).2)
    else scanFrom cs (cur ++ [c])

/-- The loop `for scanner.Scan()` of `getHosts` (lines 119-126) over the delivered
tokens; `hosts` is the slice built so far. -/
def getHostsLoop : List String → List String → List String
  | [], hosts => hosts
  | txt :: rest, hosts =>
    if TrimSpace txt == "" || stringsHasPrefix (TrimSpace txt) "#" then
      getHostsLoop rest hosts
    else getHostsLoop rest (hosts ++ [TrimSpace txt])

/-- The function `getHosts`. The argument is what `os.Open(f)` and reading the file
give: the error message of a failed open, or the content of the file. -/
def getHosts (file : Except String String) : Except GoError (List String) :=
  match file with
  | .error e => .error (.other e)
  | .ok content =>
    match (scanFrom content.data []).2 with
    | some e => .error e
    | none => .ok (getHostsLoop (scanFrom content.data []).1 [])

/-- A text as the sequence of its lines: the lines joined by the line terminator,
the last one unterminated. -/
def joinLines : List String → String
  | [] => ""
  | [l] => l
  | l :: ls => l ++ "\n" ++ joinLines ls

/-- What the host-list loader is specified to return for a sequence of lines: the
trimmed lines that are not blank and not comments, in order. -/
def specHosts (lines : List String) : List String :=
  (lines.map TrimSpace).filter (fun l => l ≠ "" ∧ l.data.head? ≠ some '#')

/-! ## Scheduler -/

/-- The constant `maxConcurrentProcs`. -/
def maxConcurrentProcs : Nat := 4

/-- The line `f` prints for a host, by the `switch err` of lines 57-70. -/
def reportLine (host s : String) (err : Option GoError) : String :=
  match err with
  | some .errExpired =>
    host ++ ": \x1b[1;31m" ++ GoError.Error .errExpired ++ "\x1b[0m\n"
  | some .errAboutToExpire =>
    host ++ ": \x1b[1;33m" ++ GoError.Error .errAboutToExpire ++ " " ++ s ++ "\x1b[0m\n"
  | none => host ++ ": \x1b[1;32mok (will expire in " ++ s ++ ")\x1b[0m\n"
  | some e => host ++ ": \x1b[1;31m" ++ GoError.Error e ++ "\x1b[0m\n"

/-- Where a goroutine running `f` stands. -/
inductive TaskPc where
  /-- Line 56: about to call `checkCertificate`. -/
  | check
  /-- Lines 57-70: holds the result, about to print. -/
  | report (s : String) (err : Option GoError)
  /-- Line 71: about to receive from `ch`. -/
  | recv
  /-- Past line 71: the deferred `wg.Done()` is about to run. -/
  | done
  /-- The goroutine has ended. -/
  | exited
  deriving DecidableEq, Repr

/-- A goroutine running `f(host, &wg, ch)`. -/
structure Task where
  host : String
  pc : TaskPc
  deriving DecidableEq, Repr

/-- Where `main` stands in lines 46-51. -/
inductive MainPc where
  /-- Line 47 with a url left (`ch <- struct{}{}`), or line 51 with none left (`wg.Wait()`). -/
  | send
  /-- Line 48: `wg.Add(1)`. -/
  | add
  /-- Line 49: `go f(url, &wg, ch)`. -/
  | spawn
  /-- Past line 51: `wg.Wait()` has returned. -/
  | returned
  deriving DecidableEq, Repr

/-- The state of the program from line 44 on: the position of `main`, the urls the
loop has not finished with, the number of elements in the channel `ch`, the counter
of the wait group `wg`, the goroutines started so far in launch order, and the
lines written to standard output. -/
structure Sched where
  pc : MainPc
  urls : List String
  ch : Nat
  wg : Int
  tasks : List Task
  stdout : List String
  deriving DecidableEq, Repr

/-- The inputs of a run: the value of the `-d` flag and, for the `i`-th goroutine
launched, the network, clock and humanizer its probe meets. -/
structure Run where
  thresholdDuration : Int
  world : Nat → World

/-- The state at line 44, after `getHosts` returned `urls`. -/
def initSched (urls : List String) : Sched :=
  { pc := .send, urls := urls, ch := 0, wg := 0, tasks := [], stdout := [] }

/-- One step of `main` (lines 46-51); `none` when `main` is blocked or has returned.
A send blocks while the channel holds `maxConcurrentProcs` elements; `wg.Wait()`
blocks while the counter is not zero. -/
def mainStep (s : Sched) : Option Sched :=
  match s.pc, s.urls with
  | .send, _ :: _ =>
    if s.ch < maxConcurrentProcs then some { s with ch := s.ch + 1, pc := .add } else none
  | .send, [] => if s.wg = 0 then some { s with pc := .returned } else none
  | .add, _ => some { s with wg := s.wg + 1, pc := .spawn }
  | .spawn, url :: rest =>
    some { s with tasks := s.tasks ++ [{ host := url, pc := .check }], urls := rest, pc := .send }
  | .spawn, [] => none
  | .returned, _ => none

/-- One step of the `i`-th goroutine running `f` (lines 54-72); `none` when there is
no such goroutine, when it is blocked on the empty channel, when it has ended, or
when `wg.Done()` would make the counter negative (a panic). -/
def fStep (r : Run) (s : Sched) (i : Nat) : Option Sched :=
  match s.tasks[i]? with
  | none => none
  | some t =>
    match t.pc with
    | .check =>
      some { s with tasks := s.tasks.set i { t with
        pc := .report (checkCertificate (r.world i) r.thresholdDuration t.host).1
          (checkCertificate (r.world i) r.thresholdDuration t.host).2 } }
    | .report str err =>
      some { s with stdout := s.stdout ++ [reportLine t.host str err],
                    tasks := s.tasks.set i { t with pc := .recv } }
    | .recv =>
      if 0 < s.ch then
        some { s with ch := s.ch - 1, tasks := s.tasks.set i { t with pc := .done } }
      else none
    | .done =>
      if 0 < s.wg then
        some { s with wg := s.wg - 1, tasks := s.tasks.set i { t with pc := .exited } }
      else none
    | .exited => none

/-- Who moves next: `main` or the `i`-th goroutine. -/
inductive Action where
  | main
  | task (i : Nat)
  deriving DecidableEq, Repr

/-- One step of the program under the scheduler choice `a`. -/
def step (r : Run) (s : Sched) : Action → Option Sched
  | .main => mainStep s
  | .task i => fStep r s i

/-- The state after the interleaving `as`, when every one of its steps is enabled. -/
def exec (r : Run) (s : Sched) : List Action → Option Sched
  | [] => some s
  | a :: as =>
    match step r s a with
    | none => none
    | some t => exec r t as

/-- A goroutine that has been launched and has not yet received from `ch`. -/
def Task.holdsSlot (t : Task) : Bool :=
  match t.pc with
  | .check => true
  | .report _ _ => true
  | .recv => true
  | .done => false
  | .exited => false

/-- The number of goroutines launched that have not yet released their channel slot. -/
def inFlight (s : Sched) : Nat := s.tasks.countP Task.holdsSlot

/-- The line that the `i`-th goroutine launched prints for `host`: the report of
what `checkCertificate` returns in the world `r.world i`. -/
def probeLine (r : Run) (i : Nat) (host : String) : String :=
  reportLine host (checkCertificate (r.world i) r.thresholdDuration host).1
    (checkCertificate (r.world i) r.thresholdDuration host).2

/-- One line per host, in launch order: the first host of the list is probed by the
`i`-th goroutine, the next by the one after it, and so on. -/
def expectedLines (r : Run) : Nat → List String → List String
  | _, [] => []
  | i, h :: hs => probeLine r i h :: expectedLines r (i + 1) hs

/-- The goroutine has printed its line. -/
def Task.printed (t : Task) : Bool :=
  match t.pc with
  | .check => false
  | .report _ _ => false
  | .recv => true
  | .done => true
  | .exited => true

/-- The goroutine has not yet run its deferred `wg.Done()`. -/
def Task.running (t : Task) : Bool :=
  match t.pc with
  | .exited => false
  | _ => true

/-- The number of steps the goroutine still has to take. -/
def Task.weight (t : Task) : Nat :=
  match t.pc with
  | .check => 4
  | .report _ _ => 3
  | .recv => 2
  | .done => 1
  | .exited => 0

/-- The lines of the goroutines that have printed, in launch order; the first
goroutine of the list is the `i`-th launched. -/
def printedLines (r : Run) : Nat → List Task → List String
  | _, [] => []
  | i, t :: ts =>
    if t.printed then probeLine r i t.host :: printedLines r (i + 1) ts
    else printedLines r (i + 1) ts

/-- Every goroutine that holds a result holds what `checkCertificate` returned to it. -/
def resultsOk (r : Run) : Nat → List Task → Prop
  | _, [] => True
  | i, t :: ts =>
    (∀ str err, t.pc = .report str err →
      (str, err) = checkCertificate (r.world i) r.thresholdDuration t.host) ∧
    resultsOk r (i + 1) ts

/-- The channel element `main` has sent for a goroutine it has not launched yet. -/
def mainSlot : MainPc → Nat
  | .add => 1
  | .spawn => 1
  | _ => 0

/-- The unit `main` has added to the wait group for a goroutine it has not launched yet. -/
def mainCount : MainPc → Nat
  | .spawn => 1
  | _ => 0

/-- The number of steps `main` still has to take, the steps of the goroutines it has
yet to launch included. -/
def mainWeight (pc : MainPc) (urls : List String) : Nat :=
  match pc with
  | .send => 7 * urls.length + 1
  | .add => 7 * urls.length
  | .spawn => 7 * urls.length - 1
  | .returned => 0

/-- The number of steps the program still has to take. -/
def stepsLeft (s : Sched) : Nat :=
  mainWeight s.pc s.urls + (s.tasks.map Task.weight).sum

/-- The invariant of the scheduler for the host list `hosts`. -/
structure Inv (r : Run) (hosts : List String) (s : Sched) : Prop where
  hosts_eq : hosts = s.tasks.map Task.host ++ s.urls
  ch_eq : s.ch = inFlight s + mainSlot s.pc
  ch_le : s.ch ≤ maxConcurrentProcs
  wg_eq : s.wg = ((s.tasks.countP Task.running + mainCount s.pc : Nat) : Int)
  out : s.stdout.Perm (printedLines r 0 s.tasks)
  results : resultsOk r 0 s.tasks
  urls_ne : s.pc = .add ∨ s.pc = .spawn → s.urls ≠ []
  ret : s.pc = .returned → s.urls = [] ∧ s.wg = 0

/-! ## Specification-side definitions and sample inputs -/

/-- The classification rule as the specification words it, for a leaf certificate
with not-after moment `E`, the current time `now` and the threshold `T`. -/
def specClassify (now E : Time) (T : Duration) : Classification :=
  if now > E then .Expired else if now + T > E then .ExpiringSoon else .Healthy

/-- The non-CA certificates of a chain, in chain order. -/
def nonCA (chain : List Certificate) : List Certificate :=
  chain.filter (fun c => !c.IsCA)

/-- The moment the description is computed from, read off the chain: the not-after
moment of the first non-CA certificate that is not Healthy; when there is none, that
of the last non-CA certificate; when the chain has no non-CA certificate, the zero time. -/
def decidingExpiry (now : Time) (T : Duration) (chain : List Certificate) : Time :=
  match (nonCA chain).find? (fun c => specClassify now c.NotAfter T ≠ .Healthy) with
  | some c => c.NotAfter
  | none =>
    match (nonCA chain).getLast? with
    | some c => c.NotAfter
    | none => zeroTime

/-- Twenty-four hours. -/
def Day : Duration := 24 * Hour

/-- A moment in the year 2026 used in the examples. -/
def sampleNow : Time := 63900000000 * 1000000000

/-- A world in which every dial and handshake succeeds with the peer chain `chain`,
the clock stands at `now`, and the humanizer only tells past from future. -/
def frozenWorld (now : Time) (chain : List Certificate) : World :=
  { dial := fun _ => .ok { handshakeErr := none, PeerCertificates := chain }
    now := fun _ => now
    humanize := fun e n => if After n e then "some time ago" else "some time from now" }

/-- A world in which every dial fails with the message `msg`. -/
def unreachableWorld (msg : String) : World :=
  { dial := fun _ => .error msg
    now := fun _ => sampleNow
    humanize := fun _ _ => "" }

/-- A run of two hosts: the first answers with a leaf certificate that expires in two
days, the second cannot be reached. -/
def sampleRun : Run :=
  { thresholdDuration := 7
    world := fun i =>
      if i = 1 then unreachableWorld "dial tcp: i/o timeout"
      else frozenWorld sampleNow [{ IsCA := false, NotAfter := sampleNow + 2 * Day }] }

/-- An interleaving of the run of `["good.example", "down.example"]`: `main` launches
both goroutines, the second one reports first, then `main` returns from `wg.Wait()`. -/
def sampleSchedule : List Action :=
  [.main, .main, .main, .main, .main, .main, .task 1, .task 1, .task 0, .task 0,
    .task 1, .task 1, .task 0, .task 0, .main]

/-- The state in which `sampleSchedule` ends. -/
def sampleFinal : Sched :=
  { pc := .returned
    urls := []
    ch := 0
    wg := 0
    tasks := [{ host := "good.example", pc := .exited }, { host := "down.example", pc := .exited }]
    stdout := ["down.example: \x1b[1;31mdial tcp: i/o timeout\x1b[0m\n",
      "good.example: \x1b[1;33mexpiring in some time from now\x1b[0m\n"] }

/-- The state of a run of five hosts after `main` has launched four goroutines and
none of them has moved: `main` is blocked on its fifth send. -/
def sampleBusy : Sched :=
  { pc := .send
    urls := ["e.example"]
    ch := 4
    wg := 4
    tasks := [{ host := "a.example", pc := .check }, { host := "b.example", pc := .check },
      { host := "c.example", pc := .check }, { host := "d.example", pc := .check }]
    stdout := [] }

/-! # Properties -/

/-! ## The certificate loop -/

theorem certLoop_skip_CA (now : Nat → Time) (T : Duration) (pre rest : List Certificate)
    (e : Time) (k : Nat) (hpre : ∀ x ∈ pre, x.IsCA = true) :
    certLoop now T (pre ++ rest) e k = certLoop now T rest e k := by
  induction pre with
  | nil => rfl
  | cons x xs ih =>
    have hx : x.IsCA = true := hpre x (List.mem_cons_self _ _)
    have hxs : ∀ y ∈ xs, y.IsCA = true := fun y hy => hpre y (List.mem_cons_of_mem _ hy)
    simp [certLoop, hx, ih hxs]

theorem certLoop_nonCA (now : Nat → Time) (T : Duration) (chain : List Certificate)
    (e : Time) (k : Nat) :
    certLoop now T chain e k = certLoop now T (nonCA chain) e k := by
  induction chain generalizing e k with
  | nil => rfl
  | cons x xs ih =>
    cases hx : x.IsCA with
    | true => simp [certLoop, nonCA, hx] at *; exact ih e k
    | false =>
      simp only [nonCA, List.filter, hx, Bool.not_false, certLoop] at *
      simp only [Bool.false_eq_true, if_false]
      split
      · rfl
      · split
        · rfl
        · exact ih _ _

/-- The loop on a chain whose only non-CA certificate is `c`, under a clock standing at `now`. -/
theorem certLoop_single (now : Time) (T : Duration) (chain : List Certificate)
    (c : Certificate) (e : Time) (k : Nat) (h : nonCA chain = [c]) :
    certLoop (fun _ => now) T chain e k =
      if now > c.NotAfter then (c.NotAfter, some .errExpired, k + 1)
      else if now + T > c.NotAfter then (c.NotAfter, some .errAboutToExpire, k + 2)
      else (c.NotAfter, none, k + 2) := by
  have hc : c.IsCA = false := by
    have : c ∈ nonCA chain := by rw [h]; exact List.mem_singleton_self c
    simpa [nonCA] using (List.mem_filter.mp this).2
  rw [certLoop_nonCA, h]
  simp [certLoop, hc, After, Add]

theorem classOf_certLoop_single (now : Time) (T : Duration) (chain : List Certificate)
    (c : Certificate) (e : Time) (k : Nat) (h : nonCA chain = [c]) :
    classOf (certLoop (fun _ => now) T chain e k).2.1 = specClassify now c.NotAfter T := by
  rw [certLoop_single now T chain c e k h]
  unfold specClassify
  split
  · rfl
  · split <;> rfl

theorem thresholdNanos_seven : thresholdNanos 7 = 7 * Day := by decide

theorem thresholdNanos_one : thresholdNanos 1 = Day := by decide


theorem certLoop_stop (now : Time) (T : Duration) (pre : List Certificate) (c : Certificate)
    (rest : List Certificate) (e : Time) (k : Nat)
    (hpre : ∀ x ∈ pre, x.IsCA = true ∨ specClassify now x.NotAfter T = .Healthy)
    (hc : c.IsCA = false) (hbad : specClassify now c.NotAfter T ≠ .Healthy) :
    certLoop (fun _ => now) T (pre ++ c :: rest) e k =
      (c.NotAfter,
        if now > c.NotAfter then some GoError.errExpired else some GoError.errAboutToExpire,
        k + 2 * (nonCA pre).length + if now > c.NotAfter then 1 else 2) := by
  induction pre generalizing e k with
  | nil =>
    simp only [List.nil_append, certLoop, hc, nonCA, List.filter, List.length_nil, After, Add]
    unfold specClassify at hbad
    by_cases h1 : now > c.NotAfter
    · simp [h1]
    · by_cases h2 : now + T > c.NotAfter
      · simp [h1, h2]
      · simp [h1, h2] at hbad
  | cons x xs ih =>
    have hxs : ∀ y ∈ xs, y.IsCA = true ∨ specClassify now y.NotAfter T = .Healthy :=
      fun y hy => hpre y (List.mem_cons_of_mem _ hy)
    cases hx : x.IsCA with
    | true =>
      simp only [List.cons_append, certLoop, hx, if_true, nonCA, List.filter, Bool.not_true]
      exact ih e k hxs
    | false =>
      have hh : specClassify now x.NotAfter T = .Healthy := by
        rcases hpre x (List.mem_cons_self _ _) with h | h
        · rw [hx] at h; cases h
        · exact h
      unfold specClassify at hh
      have h1 : ¬ now > x.NotAfter := by
        intro h; simp [h] at hh
      have h2 : ¬ now + T > x.NotAfter := by
        intro h; simp [h1, h] at hh
      simp only [List.cons_append, certLoop, hx, nonCA, List.filter, Bool.not_false,
        After, Add, List.length_cons]
      simp only [decide_eq_true_eq, h1, h2, if_false, Bool.false_eq_true, List.append_eq]
      rw [ih _ _ hxs]
      simp only [nonCA]
      congr 2
      omega

theorem certLoop_expiry (now : Time) (T : Duration) (chain : List Certificate)
    (e : Time) (k : Nat) :
    (certLoop (fun _ => now) T chain e k).1 =
      match (nonCA chain).find? (fun c => specClassify now c.NotAfter T ≠ .Healthy) with
      | some c => c.NotAfter
      | none =>
        match (nonCA chain).getLast? with
        | some c => c.NotAfter
        | none => e := by
  induction chain generalizing e k with
  | nil => rfl
  | cons x xs ih =>
    cases hx : x.IsCA with
    | true =>
      simp only [certLoop, hx, if_true, nonCA, List.filter, Bool.not_true]
      exact ih e k
    | false =>
      simp only [certLoop, hx, nonCA, List.filter, Bool.not_false, After, Add,
        Bool.false_eq_true, if_false, decide_eq_true_eq, List.find?]
      by_cases h1 : now > x.NotAfter
      · simp [h1, specClassify]
      · by_cases h2 : now + T > x.NotAfter
        · simp [h1, h2, specClassify]
        · have hh : specClassify now x.NotAfter T = .Healthy := by simp [specClassify, h1, h2]
          simp only [h1, h2, if_false, hh, ne_eq, not_true_eq_false, decide_False]
          rw [ih]
          simp only [nonCA, ne_eq]
          cases hf : List.find? (fun c => decide ¬specClassify now c.NotAfter T = Classification.Healthy)
              (List.filter (fun c => !c.IsCA) xs) with
          | some c => rfl
          | none =>
            simp only
            cases hl : List.filter (fun c => !c.IsCA) xs with
            | nil => rfl
            | cons y ys =>
              rw [List.getLast?_cons_cons]
              cases hg : (y :: ys).getLast? with
              | none => exact absurd hg (by simp)
              | some z => rfl

theorem checkCertificate_ok (w : World) (d : Int) (host : String) (conn : Conn)
    (hdial : w.dial (dialAddress host) = .ok conn) (hhs : conn.handshakeErr = none) :
    checkCertificate w d host =
      (w.humanize (certLoop w.now (thresholdNanos d) conn.PeerCertificates zeroTime 0).1
          (w.now (certLoop w.now (thresholdNanos d) conn.PeerCertificates zeroTime 0).2.2),
        (certLoop w.now (thresholdNanos d) conn.PeerCertificates zeroTime 0).2.1) := by
  simp only [checkCertificate, hdial, hhs]

theorem now_const (w : World) (now : Time) (hnow : ∀ k, w.now k = now) :
    w.now = fun _ => now := funext hnow

/-- C1, counterexample: with the flag value `-1` the threshold `T` is minus one day. The
peer chain holds a server certificate flagged as CA and exactly one non-CA certificate,
whose not-after moment is exactly `now + T`; it is classified Expired, not Healthy. -/
theorem boundary_with_negative_threshold_is_expired :
    thresholdNanos (-1) = -Day ∧
    nonCA [{ IsCA := true, NotAfter := sampleNow + 900 * Day },
      { IsCA := false, NotAfter := sampleNow + thresholdNanos (-1) }] =
      [{ IsCA := false, NotAfter := sampleNow + thresholdNanos (-1) }] ∧
    classOf (checkCertificate
      (frozenWorld sampleNow [{ IsCA := true, NotAfter := sampleNow + 900 * Day },
        { IsCA := false, NotAfter := sampleNow + thresholdNanos (-1) }])
      (-1) "example.com").2 = .Expired := by
  decide

/-- C1, amended: for a chain with exactly one non-CA certificate, not-after moment `E`,
and a clock standing at `now`, the classification is Expired if `now > E`, otherwise
ExpiringSoon if `now + T > E`, otherwise Healthy, for every threshold `T` and every
flag value; for a threshold `T ≥ 0`, `E = now + T` is Healthy; with `E = now + 2 days`
the result is ExpiringSoon for the flag value 7 and Healthy for the flag value 1. -/
theorem checkCertificate_classification (w : World) (host : String) (conn : Conn)
    (now : Time) (c : Certificate)
    (hdial : w.dial (dialAddress host) = .ok conn) (hhs : conn.handshakeErr = none)
    (hnow : ∀ k, w.now k = now) (hleaf : nonCA conn.PeerCertificates = [c]) :
    (∀ T : Duration, classOf (certLoop w.now T conn.PeerCertificates zeroTime 0).2.1 =
      specClassify now c.NotAfter T) ∧
    (∀ d : Int, classOf (checkCertificate w d host).2 =
      specClassify now c.NotAfter (thresholdNanos d)) ∧
    (∀ T : Duration, 0 ≤ T → c.NotAfter = now + T →
      classOf (certLoop w.now T conn.PeerCertificates zeroTime 0).2.1 = .Healthy) ∧
    (∀ d : Int, 0 ≤ thresholdNanos d → c.NotAfter = now + thresholdNanos d →
      classOf (checkCertificate w d host).2 = .Healthy) ∧
    (c.NotAfter = now + 2 * Day →
      thresholdNanos 7 = 7 * Day ∧ classOf (checkCertificate w 7 host).2 = .ExpiringSoon ∧
      thresholdNanos 1 = Day ∧ classOf (checkCertificate w 1 host).2 = .Healthy) := by
  have hloop : ∀ T : Duration, classOf (certLoop w.now T conn.PeerCertificates zeroTime 0).2.1 =
      specClassify now c.NotAfter T := by
    intro T
    rw [now_const w now hnow]
    exact classOf_certLoop_single now T _ c zeroTime 0 hleaf
  have hcheck : ∀ d : Int, classOf (checkCertificate w d host).2 =
      specClassify now c.NotAfter (thresholdNanos d) := by
    intro d
    rw [checkCertificate_ok w d host conn hdial hhs]
    exact hloop _
  have hbound : ∀ T : Duration, 0 ≤ T → c.NotAfter = now + T →
      specClassify now c.NotAfter T = .Healthy := by
    intro T hT hE
    unfold specClassify
    rw [hE]
    have h1 : ¬ now > now + T := by intro h; linarith
    simp [h1]
  refine ⟨hloop, hcheck, ?_, ?_, ?_⟩
  · intro T hT hE
    rw [hloop]; exact hbound T hT hE
  · intro d hT hE
    rw [hcheck]; exact hbound _ hT hE
  · intro hE
    refine ⟨thresholdNanos_seven, ?_, thresholdNanos_one, ?_⟩
    · rw [hcheck, thresholdNanos_seven, hE]
      unfold specClassify
      have hd : (0 : Int) < Day := by decide
      have h1 : ¬ now > now + 2 * Day := by intro h; linarith
      have h2 : now + 7 * Day > now + 2 * Day := by linarith
      simp [h1, h2]
    · rw [hcheck, thresholdNanos_one, hE]
      unfold specClassify
      have hd : (0 : Int) < Day := by decide
      have h1 : ¬ now > now + 2 * Day := by intro h; linarith
      have h2 : ¬ now + Day > now + 2 * Day := by intro h; linarith
      simp [h1, h2]

theorem checkCertificate_classification_witness :
    classOf (checkCertificate
      (frozenWorld sampleNow [{ IsCA := true, NotAfter := sampleNow + 900 * Day },
        { IsCA := false, NotAfter := sampleNow + 2 * Day }]) 7 "example.com").2 =
      .ExpiringSoon ∧
    classOf (checkCertificate
      (frozenWorld sampleNow [{ IsCA := true, NotAfter := sampleNow + 900 * Day },
        { IsCA := false, NotAfter := sampleNow + 2 * Day }]) 1 "example.com").2 =
      .Healthy :=
  have h := (checkCertificate_classification
    (frozenWorld sampleNow [{ IsCA := true, NotAfter := sampleNow + 900 * Day },
        { IsCA := false, NotAfter := sampleNow + 2 * Day }])
    "example.com"
    { handshakeErr := none, PeerCertificates := [{ IsCA := true, NotAfter := sampleNow + 900 * Day },
        { IsCA := false, NotAfter := sampleNow + 2 * Day }] }
    sampleNow { IsCA := false, NotAfter := sampleNow + 2 * Day }
    rfl rfl (fun _ => rfl) (by decide)).2.2.2.2 rfl
  ⟨h.2.1, h.2.2.2⟩


/-- C2, counterexample: two chains that agree up to and including their first non-CA
certificate (a Healthy leaf) and differ only after it are classified differently and
leave different expiry moments. -/
theorem later_nonCA_certificate_changes_result :
    (certLoop (fun _ => sampleNow) (thresholdNanos 7)
      [{ IsCA := false, NotAfter := sampleNow + 30 * Day }] zeroTime 0).1 = sampleNow + 30 * Day ∧
    (certLoop (fun _ => sampleNow) (thresholdNanos 7)
      [{ IsCA := false, NotAfter := sampleNow + 30 * Day },
        { IsCA := false, NotAfter := sampleNow - Day }] zeroTime 0).1 = sampleNow - Day ∧
    classOf (checkCertificate
      (frozenWorld sampleNow [{ IsCA := false, NotAfter := sampleNow + 30 * Day }])
      7 "example.com").2 = .Healthy ∧
    classOf (checkCertificate
      (frozenWorld sampleNow [{ IsCA := false, NotAfter := sampleNow + 30 * Day },
        { IsCA := false, NotAfter := sampleNow - Day }])
      7 "example.com").2 = .Expired := by
  decide

/-- C2, amended: under a clock standing at `now`, the result of the certificate loop
depends only on the chain up to and including the first non-CA certificate that is
Expired or ExpiringSoon. Two chains that agree up to and including that certificate
(before it: CA certificates and Healthy non-CA certificates) yield the same expiry
moment, which is its not-after moment, the same error, which is its classification,
and the same result of `checkCertificate`, whatever certificates follow it. -/
theorem certLoop_depends_on_first_unhealthy (now : Time) (T : Duration)
    (pre : List Certificate) (c : Certificate) (rest1 rest2 : List Certificate)
    (hpre : ∀ x ∈ pre, x.IsCA = true ∨ specClassify now x.NotAfter T = .Healthy)
    (hc : c.IsCA = false) (hbad : specClassify now c.NotAfter T ≠ .Healthy) :
    certLoop (fun _ => now) T (pre ++ c :: rest1) zeroTime 0 =
      certLoop (fun _ => now) T (pre ++ c :: rest2) zeroTime 0 ∧
    (certLoop (fun _ => now) T (pre ++ c :: rest1) zeroTime 0).1 = c.NotAfter ∧
    classOf (certLoop (fun _ => now) T (pre ++ c :: rest1) zeroTime 0).2.1 =
      specClassify now c.NotAfter T ∧
    (∀ (w1 w2 : World) (d : Int) (host : String), T = thresholdNanos d →
      w1.dial (dialAddress host) = .ok { handshakeErr := none, PeerCertificates := pre ++ c :: rest1 } →
      w2.dial (dialAddress host) = .ok { handshakeErr := none, PeerCertificates := pre ++ c :: rest2 } →
      (∀ k, w1.now k = now) → (∀ k, w2.now k = now) → w1.humanize = w2.humanize →
      checkCertificate w1 d host = checkCertificate w2 d host) := by
  have h1 := certLoop_stop now T pre c rest1 zeroTime 0 hpre hc hbad
  have h2 := certLoop_stop now T pre c rest2 zeroTime 0 hpre hc hbad
  refine ⟨by rw [h1, h2], by rw [h1], ?_, ?_⟩
  · rw [h1]
    unfold specClassify at hbad ⊢
    by_cases g1 : now > c.NotAfter
    · simp [g1, classOf]
    · by_cases g2 : now + T > c.NotAfter
      · simp [g1, g2, classOf]
      · simp [g1, g2] at hbad
  · intro w1 w2 d host hT hd1 hd2 hn1 hn2 hh
    rw [checkCertificate_ok w1 d host _ hd1 rfl, checkCertificate_ok w2 d host _ hd2 rfl,
      now_const w1 now hn1, now_const w2 now hn2, ← hT, h1, h2, hh]

theorem certLoop_depends_on_first_unhealthy_witness :
    certLoop (fun _ => sampleNow) (thresholdNanos 7)
        ([{ IsCA := true, NotAfter := sampleNow + 900 * Day }] ++
          { IsCA := false, NotAfter := sampleNow + 2 * Day } :: []) zeroTime 0 =
      certLoop (fun _ => sampleNow) (thresholdNanos 7)
        ([{ IsCA := true, NotAfter := sampleNow + 900 * Day }] ++
          { IsCA := false, NotAfter := sampleNow + 2 * Day } ::
            [{ IsCA := false, NotAfter := sampleNow - Day }]) zeroTime 0 :=
  (certLoop_depends_on_first_unhealthy sampleNow (thresholdNanos 7)
    [{ IsCA := true, NotAfter := sampleNow + 900 * Day }]
    { IsCA := false, NotAfter := sampleNow + 2 * Day } []
    [{ IsCA := false, NotAfter := sampleNow - Day }]
    (by decide) rfl (by decide)).1

/-- C8: when the dial and the handshake succeed and every certificate of the peer
chain is a CA certificate (the empty chain included), `checkCertificate` returns no
error, which `f` reports as Healthy, and the description is the humanized zero time,
for every clock and every threshold. -/
theorem checkCertificate_without_leaf (w : World) (d : Int) (host : String) (conn : Conn)
    (hdial : w.dial (dialAddress host) = .ok conn) (hhs : conn.handshakeErr = none)
    (hall : ∀ c ∈ conn.PeerCertificates, c.IsCA = true) :
    checkCertificate w d host = (w.humanize zeroTime (w.now 0), none) ∧
    classOf (checkCertificate w d host).2 = .Healthy := by
  have h : certLoop w.now (thresholdNanos d) conn.PeerCertificates zeroTime 0 =
      (zeroTime, none, 0) := by
    have := certLoop_skip_CA w.now (thresholdNanos d) conn.PeerCertificates [] zeroTime 0 hall
    rw [List.append_nil] at this
    rw [this]; rfl
  rw [checkCertificate_ok w d host conn hdial hhs, h]
  exact ⟨rfl, rfl⟩

theorem checkCertificate_without_leaf_witness :
    checkCertificate (frozenWorld sampleNow [{ IsCA := true, NotAfter := sampleNow - Day }])
        7 "example.com" = ("some time ago", none) ∧
    checkCertificate (frozenWorld sampleNow []) 7 "example.com" = ("some time ago", none) :=
  ⟨(checkCertificate_without_leaf
      (frozenWorld sampleNow [{ IsCA := true, NotAfter := sampleNow - Day }]) 7 "example.com"
      { handshakeErr := none, PeerCertificates := [{ IsCA := true, NotAfter := sampleNow - Day }] }
      rfl rfl (by decide)).1,
   (checkCertificate_without_leaf (frozenWorld sampleNow []) 7 "example.com"
      { handshakeErr := none, PeerCertificates := [] } rfl rfl (by simp)).1⟩

/-- C10, the defect: the flag value 106752 makes the `int64` product
`time.Hour * 24 * 106752` wrap to a negative duration, so a certificate that expires in
two days is ExpiringSoon with `-d 7` and Healthy with `-d 106752`. -/
theorem threshold_overflow_breaks_monotonicity :
    (0 : Int) ≤ 7 ∧ (7 : Int) ≤ 106752 ∧
    thresholdNanos 106752 = -9223371273709551616 ∧
    classOf (checkCertificate
      (frozenWorld sampleNow [{ IsCA := false, NotAfter := sampleNow + 2 * Day }])
      7 "example.com").2 = .ExpiringSoon ∧
    classOf (checkCertificate
      (frozenWorld sampleNow [{ IsCA := false, NotAfter := sampleNow + 2 * Day }])
      106752 "example.com").2 = .Healthy := by
  decide


theorem wrapInt64_of_inRange (x : Int) (h1 : -(2 ^ 63) ≤ x) (h2 : x < 2 ^ 63) :
    wrapInt64 x = x := by
  unfold wrapInt64
  have h : (x + 2 ^ 63) % 2 ^ 64 = x + 2 ^ 63 := by
    apply Int.emod_eq_of_lt <;> omega
  omega

theorem thresholdNanos_of_small (d : Int) (h1 : 0 ≤ d) (h2 : d ≤ 106751) :
    thresholdNanos d = 86400000000000 * d := by
  unfold thresholdNanos Hour
  rw [wrapInt64_of_inRange d (by omega) (by omega)]
  rw [wrapInt64_of_inRange _ (by omega) (by omega)]
  norm_num

/-- Where the product does not wrap (flag values from 0 to 106751) the classification
is monotone in the flag value: ExpiringSoon with `d1` days stays ExpiringSoon with
`d2 ≥ d1` days. -/
theorem expiringSoon_monotone_without_overflow (now E : Time) (d1 d2 : Int)
    (h0 : 0 ≤ d1) (h12 : d1 ≤ d2) (h2 : d2 ≤ 106751)
    (hsoon : specClassify now E (thresholdNanos d1) = .ExpiringSoon) :
    specClassify now E (thresholdNanos d2) = .ExpiringSoon := by
  rw [thresholdNanos_of_small d1 h0 (by omega)] at hsoon
  rw [thresholdNanos_of_small d2 (by omega) h2]
  unfold specClassify at hsoon ⊢
  by_cases g1 : now > E
  · simp [g1] at hsoon
  · by_cases g2 : now + 86400000000000 * d1 > E
    · have g3 : now + 86400000000000 * d2 > E := by
        have : (86400000000000 : Int) * d1 ≤ 86400000000000 * d2 := by omega
        linarith
      simp [g1, g3]
    · simp [g1, g2] at hsoon

theorem expiringSoon_monotone_without_overflow_witness :
    specClassify sampleNow (sampleNow + 2 * Day) (thresholdNanos 30) = .ExpiringSoon :=
  expiringSoon_monotone_without_overflow sampleNow (sampleNow + 2 * Day) 7 30
    (by decide) (by decide) (by decide) (by decide)

theorem certLoop_never_error (now : Nat → Time) (T : Duration) (chain : List Certificate)
    (e : Time) (k : Nat) : classOf (certLoop now T chain e k).2.1 ≠ .Error := by
  induction chain generalizing e k with
  | nil => simp [certLoop, classOf]
  | cons x xs ih =>
    simp only [certLoop]
    split
    · exact ih e k
    · split
      · simp [classOf]
      · split
        · simp [classOf]
        · exact ih _ _

/-- C7, counterexample: the chain holds a Healthy leaf (expiring in 30 days) followed by
a second non-CA certificate that expired yesterday. The result is not an Error, and the
description is the humanized form of the second certificate's moment, not of the
moment of the first non-CA certificate. -/
theorem description_is_not_always_of_first_nonCA :
    (nonCA [{ IsCA := false, NotAfter := sampleNow + 30 * Day },
      { IsCA := false, NotAfter := sampleNow - Day }]).head? =
      some { IsCA := false, NotAfter := sampleNow + 30 * Day } ∧
    classOf (checkCertificate
      (frozenWorld sampleNow [{ IsCA := false, NotAfter := sampleNow + 30 * Day },
        { IsCA := false, NotAfter := sampleNow - Day }]) 7 "example.com").2 = .Expired ∧
    (checkCertificate
      (frozenWorld sampleNow [{ IsCA := false, NotAfter := sampleNow + 30 * Day },
        { IsCA := false, NotAfter := sampleNow - Day }]) 7 "example.com").1 =
      (frozenWorld sampleNow []).humanize (sampleNow - Day) sampleNow ∧
    (checkCertificate
      (frozenWorld sampleNow [{ IsCA := false, NotAfter := sampleNow + 30 * Day },
        { IsCA := false, NotAfter := sampleNow - Day }]) 7 "example.com").1 ≠
      (frozenWorld sampleNow []).humanize (sampleNow + 30 * Day) sampleNow := by
  decide

/-- C7, amended: `checkCertificate` yields an Error result exactly when the dial or the
handshake fails; the returned error is then the underlying failure and the description
is empty. In every other case, under a clock standing at `now`, the description is the
humanized form of the moment left in `expiry`: the not-after moment of the first non-CA
certificate that is Expired or ExpiringSoon, else of the last non-CA certificate of the
chain, else the zero time; this is the moment of the first non-CA certificate when that
certificate is Expired or ExpiringSoon or is the only non-CA certificate. -/
theorem checkCertificate_error_and_description (w : World) (d : Int) (host : String) :
    (classOf (checkCertificate w d host).2 = .Error ↔
      (∃ e, w.dial (dialAddress host) = .error e) ∨
      (∃ conn e, w.dial (dialAddress host) = .ok conn ∧ conn.handshakeErr = some e)) ∧
    (∀ e, w.dial (dialAddress host) = .error e →
      checkCertificate w d host = ("", some (.other e))) ∧
    (∀ conn e, w.dial (dialAddress host) = .ok conn → conn.handshakeErr = some e →
      checkCertificate w d host = ("", some (.other e))) ∧
    (∀ conn now, w.dial (dialAddress host) = .ok conn → conn.handshakeErr = none →
      (∀ k, w.now k = now) →
      (checkCertificate w d host).1 =
        w.humanize (decidingExpiry now (thresholdNanos d) conn.PeerCertificates) now ∧
      (∀ c rest, nonCA conn.PeerCertificates = c :: rest →
        (specClassify now c.NotAfter (thresholdNanos d) ≠ .Healthy ∨ rest = []) →
        (checkCertificate w d host).1 = w.humanize c.NotAfter now)) := by
  have hdesc : ∀ conn now, w.dial (dialAddress host) = .ok conn → conn.handshakeErr = none →
      (∀ k, w.now k = now) →
      (checkCertificate w d host).1 =
        w.humanize (decidingExpiry now (thresholdNanos d) conn.PeerCertificates) now := by
    intro conn now hdial hhs hnow
    rw [checkCertificate_ok w d host conn hdial hhs]
    simp only [hnow]
    rw [now_const w now hnow, certLoop_expiry]
    rfl
  refine ⟨?_, ?_, ?_, ?_⟩
  · constructor
    · intro h
      cases hdial : w.dial (dialAddress host) with
      | error e => exact Or.inl ⟨e, rfl⟩
      | ok conn =>
        cases hhs : conn.handshakeErr with
        | some e => exact Or.inr ⟨conn, e, rfl, hhs⟩
        | none =>
          exfalso
          rw [checkCertificate_ok w d host conn hdial hhs] at h
          exact certLoop_never_error _ _ _ _ _ h
    · rintro (⟨e, he⟩ | ⟨conn, e, hc, he⟩)
      · simp [checkCertificate, he, classOf]
      · simp [checkCertificate, hc, he, classOf]
  · intro e he
    simp [checkCertificate, he]
  · intro conn e hc he
    simp [checkCertificate, hc, he]
  · intro conn now hdial hhs hnow
    refine ⟨hdesc conn now hdial hhs hnow, ?_⟩
    intro c rest hnc hor
    rw [hdesc conn now hdial hhs hnow]
    congr 1
    unfold decidingExpiry
    rw [hnc]
    rcases hor with hbad | hrest
    · simp [List.find?, hbad]
    · subst hrest
      by_cases hbad : specClassify now c.NotAfter (thresholdNanos d) = .Healthy
      · simp [List.find?, hbad]
      · simp [List.find?, hbad]


theorem checkCertificate_error_and_description_witness :
    checkCertificate (unreachableWorld "dial tcp: i/o timeout") 7 "example.com" =
      ("", some (.other "dial tcp: i/o timeout")) ∧
    (checkCertificate
      (frozenWorld sampleNow [{ IsCA := true, NotAfter := sampleNow + 900 * Day },
        { IsCA := false, NotAfter := sampleNow + 2 * Day }]) 7 "example.com").1 =
      "some time from now" :=
  ⟨(checkCertificate_error_and_description (unreachableWorld "dial tcp: i/o timeout") 7
      "example.com").2.1 "dial tcp: i/o timeout" rfl,
   ((checkCertificate_error_and_description
      (frozenWorld sampleNow [{ IsCA := true, NotAfter := sampleNow + 900 * Day },
        { IsCA := false, NotAfter := sampleNow + 2 * Day }]) 7 "example.com").2.2.2
      { handshakeErr := none, PeerCertificates := [{ IsCA := true, NotAfter := sampleNow + 900 * Day },
        { IsCA := false, NotAfter := sampleNow + 2 * Day }] } sampleNow rfl rfl (fun _ => rfl)).2
      { IsCA := false, NotAfter := sampleNow + 2 * Day } [] (by decide) (Or.inr rfl)⟩

/-! ## Host normalisation -/

theorem containsChars_colon (s : List Char) : containsChars s [':'] = true ↔ ':' ∈ s := by
  induction s with
  | nil => simp [containsChars]
  | cons c cs ih =>
    simp only [containsChars, List.isPrefixOf, Bool.or_eq_true, ih, List.mem_cons,
      Bool.and_true, beq_iff_eq]

theorem stringsContains_colon (h : String) : stringsContains h ":" = true ↔ ':' ∈ h.data := by
  unfold stringsContains
  exact containsChars_colon h.data

theorem dialAddress_of_no_colon (h : String) (hno : ':' ∉ h.data) :
    dialAddress h = h ++ ":443" := by
  have : stringsContains h ":" = false := by
    cases hc : stringsContains h ":" with
    | false => rfl
    | true => exact absurd ((stringsContains_colon h).mp hc) hno
  simp [dialAddress, this]

theorem dialAddress_of_colon (h : String) (hc : ':' ∈ h.data) : dialAddress h = h := by
  have : stringsContains h ":" = true := (stringsContains_colon h).mpr hc
  simp [dialAddress, this]

/-- C5: a host string without a `':'` is dialled at the host followed by `":443"`, the
same address at which the host followed by `":443"` is dialled, so both calls of
`checkCertificate` give the same result; a host string ending in `":<port>"`, such as
`"example.com:8443"`, is dialled unchanged. -/
theorem dialAddress_normalizes (h : String) (hno : ':' ∉ h.data) :
    dialAddress h = h ++ ":443" ∧
    dialAddress (h ++ ":443") = dialAddress h ∧
    (∀ (w : World) (d : Int), checkCertificate w d (h ++ ":443") = checkCertificate w d h) ∧
    (∀ pre port : String, dialAddress (pre ++ ":" ++ port) = pre ++ ":" ++ port) ∧
    dialAddress "example.com:8443" = "example.com:8443" := by
  have h1 := dialAddress_of_no_colon h hno
  have h2 : dialAddress (h ++ ":443") = h ++ ":443" :=
    dialAddress_of_colon _ (by simp [String.data_append])
  refine ⟨h1, by rw [h1, h2], ?_, ?_, by decide⟩
  · intro w d
    simp only [checkCertificate, h1, h2]
  · intro pre port
    exact dialAddress_of_colon _ (by simp [String.data_append])

theorem dialAddress_normalizes_witness :
    dialAddress "example.com" = "example.com" ++ ":443" ∧
    dialAddress ("example.com" ++ ":443") = dialAddress "example.com" :=
  ⟨(dialAddress_normalizes "example.com" (by decide)).1,
   (dialAddress_normalizes "example.com" (by decide)).2.1⟩

/-- C9, counterexample: the IPv6 literals `"::1"` and `"[2001:db8::1]"` carry no port,
yet they are dialled unchanged: no port 443 is appended. -/
theorem ipv6_literal_gets_no_port :
    dialAddress "::1" = "::1" ∧ dialAddress "::1" ≠ "::1" ++ ":443" ∧
    dialAddress "::1" ≠ "[::1]:443" ∧
    dialAddress "[2001:db8::1]" = "[2001:db8::1]" ∧
    dialAddress "[2001:db8::1]" ≠ "[2001:db8::1]" ++ ":443" := by
  decide

/-- C9, amended: `checkCertificate` appends `":443"` exactly to the host strings that
contain no `':'` character; a host string that contains a `':'` is dialled unchanged,
whether the colon introduces a port or belongs to an IPv6 literal without a port. -/
theorem dialAddress_appends_port_iff_no_colon (h : String) :
    (':' ∉ h.data → dialAddress h = h ++ ":443") ∧
    (':' ∈ h.data → dialAddress h = h) ∧
    (dialAddress h = h ++ ":443" ↔ ':' ∉ h.data) := by
  refine ⟨dialAddress_of_no_colon h, dialAddress_of_colon h, ?_⟩
  constructor
  · intro heq hc
    rw [dialAddress_of_colon h hc] at heq
    have := congrArg String.length heq
    simp [String.length_append] at this
    revert this
    decide
  · exact dialAddress_of_no_colon h

theorem dialAddress_appends_port_iff_no_colon_witness :
    dialAddress "example.org" = "example.org" ++ ":443" ∧
    dialAddress "[2001:db8::1]" = "[2001:db8::1]" :=
  ⟨(dialAddress_appends_port_iff_no_colon "example.org").1 (by decide),
   (dialAddress_appends_port_iff_no_colon "[2001:db8::1]").2.1 (by decide)⟩


/-! ## Host list loading -/

theorem trimChars_dropCR (cs : List Char) :
    ((dropCR cs).dropWhile isSpace).rdropWhile isSpace =
      (cs.dropWhile isSpace).rdropWhile isSpace := by
  unfold dropCR
  split
  · rename_i hlast
    rcases List.eq_nil_or_concat cs with hnil | ⟨pre, b, hcs⟩
    · subst hnil; simp at hlast
    · subst hcs
      simp only [List.concat_eq_append] at hlast ⊢
      have hb : b = '\r' := by simpa using hlast
      subst hb
      have hsp : isSpace '\r' = true := by decide
      rw [List.dropLast_concat, List.dropWhile_append]
      split
      · rename_i hemp
        have : List.dropWhile isSpace pre = [] := by simpa using hemp
        rw [this]
        simp [List.dropWhile, hsp]
      · rw [List.rdropWhile_concat_pos _ _ _ hsp]
  · rfl

theorem TrimSpace_dropCR (cs : List Char) : TrimSpace ⟨dropCR cs⟩ = TrimSpace ⟨cs⟩ := by
  unfold TrimSpace
  rw [trimChars_dropCR]

theorem scanFrom_line (l rest cur : List Char) (hl : '\n' ∉ l) :
    scanFrom (l ++ '\n' :: rest) cur =
      if MaxScanTokenSize ≤ byteLen (cur ++ l) then ([], some .ErrTooLong)
      else ((⟨dropCR (cur ++ l)⟩ : String) :: (scanFrom rest []).1, (scanFrom rest []).2) := by
  induction l generalizing cur with
  | nil => simp [scanFrom]
  | cons c cs ih =>
    have hc : c ≠ '\n' := fun h => hl (by simp [h])
    have hcs : '\n' ∉ cs := fun h => hl (List.mem_cons_of_mem _ h)
    simp only [List.cons_append, scanFrom, hc, if_false, List.append_eq]
    rw [ih _ hcs]
    simp [List.append_assoc]

theorem scanFrom_last (l cur : List Char) (hl : '\n' ∉ l) :
    scanFrom l cur =
      if (cur ++ l).isEmpty then ([], none)
      else if MaxScanTokenSize ≤ byteLen (cur ++ l) then ([], some .ErrTooLong)
      else ([⟨dropCR (cur ++ l)⟩], none) := by
  induction l generalizing cur with
  | nil => simp [scanFrom]
  | cons c cs ih =>
    have hc : c ≠ '\n' := fun h => hl (by simp [h])
    have hcs : '\n' ∉ cs := fun h => hl (List.mem_cons_of_mem _ h)
    simp only [scanFrom, hc, if_false]
    rw [ih _ hcs]
    simp [List.append_assoc]

/-- One iteration of the loop of `getHosts`, in terms of the specified filter. -/
theorem getHostsLoop_cons (txt : String) (rest hosts : List String) :
    getHostsLoop (txt :: rest) hosts = getHostsLoop rest (hosts ++ specHosts [txt]) := by
  simp only [getHostsLoop, specHosts, List.map, List.filter, stringsHasPrefix]
  generalize TrimSpace txt = t
  obtain ⟨data⟩ := t
  cases data with
  | nil =>
    have : (⟨[]⟩ : String) = "" := rfl
    simp [this]
  | cons c cs =>
    have h1 : (⟨c :: cs⟩ : String) ≠ "" := by
      intro h
      have := congrArg String.data h
      simp at this
    by_cases h2 : c = '#'
    · subst h2
      have h4 : ("#" : String).data = ['#'] := rfl
      simp [h1, h4, List.isPrefixOf]
    · have h3 : ('#' == c) = false := by
        simp only [beq_eq_false_iff_ne, ne_eq]
        exact fun h => h2 h.symm
      have h4 : ("#" : String).data = ['#'] := rfl
      simp [h1, h2, h3, h4, List.isPrefixOf]

theorem specHosts_cons (l : String) (ls : List String) :
    specHosts (l :: ls) = specHosts [l] ++ specHosts ls := by
  simp only [specHosts, List.map, List.filter]
  split <;> simp

theorem specHosts_nil : specHosts [] = [] := rfl

theorem joinLines_cons_cons (l l2 : String) (ls : List String) :
    (joinLines (l :: l2 :: ls)).data = l.data ++ '\n' :: (joinLines (l2 :: ls)).data := by
  simp [joinLines, String.data_append]

theorem scan_joinLines (lines : List String)
    (hnl : ∀ l ∈ lines, '\n' ∉ l.data)
    (hlen : ∀ l ∈ lines, byteLen l.data < MaxScanTokenSize) (hosts : List String) :
    (scanFrom (joinLines lines).data []).2 = none ∧
    getHostsLoop (scanFrom (joinLines lines).data []).1 hosts = hosts ++ specHosts lines := by
  induction lines generalizing hosts with
  | nil => simp [joinLines, scanFrom, getHostsLoop, specHosts]
  | cons l ls ih =>
    have hl : '\n' ∉ l.data := hnl l (List.mem_cons_self _ _)
    have hlong : ¬ MaxScanTokenSize ≤ byteLen l.data := by
      have := hlen l (List.mem_cons_self _ _); omega
    cases ls with
    | nil =>
      simp only [joinLines]
      rw [scanFrom_last l.data [] hl]
      simp only [List.nil_append, hlong, if_false]
      by_cases hemp : l.data = []
      · have : l = "" := String.ext hemp
        subst this
        simp [getHostsLoop, specHosts, TrimSpace, List.rdropWhile]
      · have : l.data.isEmpty = false := by
          cases hd : l.data with
          | nil => exact absurd hd hemp
          | cons _ _ => rfl
        simp only [this, Bool.false_eq_true, if_false, true_and]
        rw [getHostsLoop_cons]
        simp only [getHostsLoop, specHosts, List.map, TrimSpace_dropCR]
    | cons l2 ls2 =>
      have ih2 := ih (fun x hx => hnl x (List.mem_cons_of_mem _ hx))
        (fun x hx => hlen x (List.mem_cons_of_mem _ hx))
      rw [joinLines_cons_cons, scanFrom_line l.data _ [] hl]
      simp only [List.nil_append, hlong, if_false]
      refine ⟨(ih2 hosts).1, ?_⟩
      rw [getHostsLoop_cons, (ih2 _).2, specHosts_cons l (l2 :: ls2), List.append_assoc]
      congr 2
      simp only [specHosts, List.map, TrimSpace_dropCR]


theorem TrimSpace_trimmed (l : String) :
    (∀ c, (TrimSpace l).data.head? = some c → isSpace c = false) ∧
    (∀ c, (TrimSpace l).data.getLast? = some c → isSpace c = false) := by
  simp only [TrimSpace]
  constructor
  · intro c hc
    have hpre : List.rdropWhile isSpace (List.dropWhile isSpace l.data) <+:
        List.dropWhile isSpace l.data := List.rdropWhile_prefix _ _
    obtain ⟨t, ht⟩ := hpre
    have hnot := List.head?_dropWhile_not isSpace l.data
    rw [← ht] at hnot
    cases hr : List.rdropWhile isSpace (List.dropWhile isSpace l.data) with
    | nil => rw [hr] at hc; simp at hc
    | cons x xs =>
      rw [hr] at hc hnot
      simp only [List.head?_cons, Option.some.injEq] at hc
      subst hc
      simpa using hnot
  · intro c hc
    cases hr : List.rdropWhile isSpace (List.dropWhile isSpace l.data) with
    | nil => rw [hr] at hc; simp at hc
    | cons x xs =>
      have hne : List.rdropWhile isSpace (List.dropWhile isSpace l.data) ≠ [] := by
        rw [hr]; simp
      have hlast := List.rdropWhile_last_not isSpace (List.dropWhile isSpace l.data) hne
      rw [List.getLast?_eq_getLast _ hne] at hc
      simp only [Option.some.injEq] at hc
      rw [hc] at hlast
      simpa using hlast

theorem byteLen_replicate_a (n : Nat) : byteLen (List.replicate n 'a') = n := by
  have h : Char.utf8Size 'a' = 1 := by decide
  simp [byteLen, List.map_replicate, List.sum_replicate, h]

theorem getHosts_too_long (n : Nat) (hn : MaxScanTokenSize ≤ n) :
    getHosts (.ok ⟨List.replicate n 'a' ++ ['\n']⟩) = .error .ErrTooLong := by
  have hnl : '\n' ∉ List.replicate n 'a' := by
    intro h
    have := List.eq_of_mem_replicate h
    revert this
    decide
  have hs := scanFrom_line (List.replicate n 'a') [] [] hnl
  simp only [List.nil_append, byteLen_replicate_a, hn, if_true] at hs
  simp only [getHosts, hs]

/-- C6, counterexample: a readable source whose single line is 65536 letters long. The
scanner stops with `bufio.ErrTooLong`, and `getHosts` returns that error instead of the
line. -/
theorem getHosts_fails_on_long_line :
    getHosts (.ok ⟨List.replicate 65536 'a' ++ ['\n']⟩) = .error .ErrTooLong :=
  getHosts_too_long 65536 (by decide)

theorem replicate_a_no_newline (n : Nat) : '\n' ∉ List.replicate n 'a' := by
  intro h
  have := List.eq_of_mem_replicate h
  revert this
  decide

/-- A line that does not fit the scanner's buffer stops the scan with
`bufio.ErrTooLong`, wherever it stands in the text and whatever the other lines are. -/
theorem scan_joinLines_too_long (lines : List String)
    (hnl : ∀ l ∈ lines, '\n' ∉ l.data)
    (hlong : ∃ l ∈ lines, MaxScanTokenSize ≤ byteLen l.data) :
    (scanFrom (joinLines lines).data []).2 = some .ErrTooLong := by
  induction lines with
  | nil =>
    obtain ⟨l, hl, _⟩ := hlong
    simp at hl
  | cons l ls ih =>
    have hl : '\n' ∉ l.data := hnl l (List.mem_cons_self _ _)
    cases ls with
    | nil =>
      obtain ⟨x, hx, hxlong⟩ := hlong
      have hxl : x = l := by simpa using hx
      subst hxl
      simp only [joinLines]
      rw [scanFrom_last x.data [] hl]
      have hne : x.data.isEmpty = false := by
        cases hd : x.data with
        | nil =>
          rw [hd] at hxlong
          have hpos : 0 < MaxScanTokenSize := by decide
          simp only [byteLen, List.map_nil, List.sum_nil] at hxlong
          omega
        | cons _ _ => rfl
      simp only [List.nil_append, hne, Bool.false_eq_true, if_false, hxlong, if_true]
    | cons l2 ls2 =>
      rw [joinLines_cons_cons, scanFrom_line l.data _ [] hl]
      simp only [List.nil_append]
      by_cases hthis : MaxScanTokenSize ≤ byteLen l.data
      · simp only [hthis, if_true]
      · simp only [hthis, if_false]
        apply ih (fun x hx => hnl x (List.mem_cons_of_mem _ hx))
        obtain ⟨x, hx, hxlong⟩ := hlong
        rcases List.mem_cons.mp hx with hxl | hxtail
        · subst hxl
          exact absurd hxlong hthis
        · exact ⟨x, hxtail, hxlong⟩

/-- C6, amended: for a readable source whose content is a sequence of lines, each
shorter than 65536 bytes, `getHosts` returns, in source order and keeping duplicates,
exactly the whitespace-trimmed lines that are non-empty after trimming and do not begin
with `'#'` after trimming; no returned entry is empty, begins with `'#'`, or has leading
or trailing whitespace. For the content `"  \n# comment\nhost1\nhost2\n"` the result is
`["host1", "host2"]`. When some line is 65536 bytes long or longer, the scanner stops
with `bufio.ErrTooLong` and `getHosts` returns that error and no hosts; so `getHosts`
fails exactly when the source has such a line. -/
theorem getHosts_returns_trimmed_hosts (lines : List String)
    (hnl : ∀ l ∈ lines, '\n' ∉ l.data) :
    ((∀ l ∈ lines, byteLen l.data < MaxScanTokenSize) →
      getHosts (.ok (joinLines lines)) = .ok (specHosts lines)) ∧
    ((∃ l ∈ lines, MaxScanTokenSize ≤ byteLen l.data) →
      getHosts (.ok (joinLines lines)) = .error .ErrTooLong) ∧
    (getHosts (.ok (joinLines lines)) = .error .ErrTooLong ↔
      ∃ l ∈ lines, MaxScanTokenSize ≤ byteLen l.data) ∧
    MaxScanTokenSize = 65536 ∧
    (∀ h ∈ specHosts lines, h ≠ "" ∧ h.data.head? ≠ some '#' ∧
      (∀ c, h.data.head? = some c → isSpace c = false) ∧
      (∀ c, h.data.getLast? = some c → isSpace c = false)) ∧
    getHosts (.ok "  \n# comment\nhost1\nhost2\n") = .ok ["host1", "host2"] := by
  have hshort : (∀ l ∈ lines, byteLen l.data < MaxScanTokenSize) →
      getHosts (.ok (joinLines lines)) = .ok (specHosts lines) := by
    intro hlen
    have h := scan_joinLines lines hnl hlen []
    simp only [getHosts, h.1, h.2, List.nil_append]
  have hlong : (∃ l ∈ lines, MaxScanTokenSize ≤ byteLen l.data) →
      getHosts (.ok (joinLines lines)) = .error .ErrTooLong := by
    intro hex
    have h := scan_joinLines_too_long lines hnl hex
    simp only [getHosts, h]
  refine ⟨hshort, hlong, ⟨?_, hlong⟩, rfl, ?_, rfl⟩
  · intro herr
    by_contra hno
    have hlen : ∀ l ∈ lines, byteLen l.data < MaxScanTokenSize := by
      intro l hl
      by_contra hge
      exact hno ⟨l, hl, by omega⟩
    rw [hshort hlen] at herr
    cases herr
  · intro h hh
    simp only [specHosts, List.mem_filter, List.mem_map, decide_eq_true_eq] at hh
    obtain ⟨⟨l, _, hl⟩, h1, h2⟩ := hh
    subst hl
    exact ⟨h1, h2, TrimSpace_trimmed l⟩

theorem getHosts_returns_trimmed_hosts_witness :
    getHosts (.ok (joinLines ["  ", "# comment", "host1", " host2\r", "host1", ""])) =
      .ok ["host1", "host2", "host1"] ∧
    getHosts (.ok (joinLines ["host1", ⟨List.replicate 65536 'a'⟩, "host2"])) =
      .error .ErrTooLong :=
  ⟨(getHosts_returns_trimmed_hosts ["  ", "# comment", "host1", " host2\r", "host1", ""]
      (by decide)).1 (by decide),
   (getHosts_returns_trimmed_hosts ["host1", ⟨List.replicate 65536 'a'⟩, "host2"]
      (by
        intro l hl
        rcases List.mem_cons.mp hl with h | hl
        · rw [h]; decide
        · rcases List.mem_cons.mp hl with h | hl
          · rw [h]; exact replicate_a_no_newline 65536
          · rcases List.mem_cons.mp hl with h | hl
            · rw [h]; decide
            · cases hl)).2.1
      ⟨⟨List.replicate 65536 'a'⟩, List.mem_cons_of_mem _ (List.mem_cons_self _ _),
        le_of_le_of_eq (by decide) (byteLen_replicate_a 65536).symm⟩⟩


/-! ## Scheduler: lists of goroutines -/

theorem countP_set_add {α : Type} (p : α → Bool) (l : List α) (i : Nat) (a b : α)
    (h : l[i]? = some a) :
    (l.set i b).countP p + (if p a then 1 else 0) = l.countP p + (if p b then 1 else 0) := by
  induction l generalizing i with
  | nil => simp at h
  | cons x xs ih =>
    cases i with
    | zero =>
      simp only [List.getElem?_cons_zero, Option.some.injEq] at h
      subst h
      simp only [List.set_cons_zero, List.countP_cons]
      omega
    | succ n =>
      simp only [List.getElem?_cons_succ] at h
      simp only [List.set_cons_succ, List.countP_cons]
      have := ih n h
      omega

theorem weight_set_add (l : List Task) (i : Nat) (a b : Task) (h : l[i]? = some a) :
    ((l.set i b).map Task.weight).sum + a.weight = (l.map Task.weight).sum + b.weight := by
  induction l generalizing i with
  | nil => simp at h
  | cons x xs ih =>
    cases i with
    | zero =>
      simp only [List.getElem?_cons_zero, Option.some.injEq] at h
      subst h
      simp only [List.set_cons_zero, List.map_cons, List.sum_cons]
      omega
    | succ n =>
      simp only [List.getElem?_cons_succ] at h
      simp only [List.set_cons_succ, List.map_cons, List.sum_cons]
      have := ih n h
      omega

theorem map_host_set (l : List Task) (i : Nat) (a b : Task) (h : l[i]? = some a)
    (hb : b.host = a.host) : (l.set i b).map Task.host = l.map Task.host := by
  induction l generalizing i with
  | nil => simp at h
  | cons x xs ih =>
    cases i with
    | zero =>
      simp only [List.getElem?_cons_zero, Option.some.injEq] at h
      subst h
      simp [hb]
    | succ n =>
      simp only [List.getElem?_cons_succ] at h
      simp [ih n h]

theorem printedLines_set_same (r : Run) (j : Nat) (l : List Task) (i : Nat) (a b : Task)
    (h : l[i]? = some a) (hb : b.host = a.host) (hp : b.printed = a.printed) :
    printedLines r j (l.set i b) = printedLines r j l := by
  induction l generalizing i j with
  | nil => simp at h
  | cons x xs ih =>
    cases i with
    | zero =>
      simp only [List.getElem?_cons_zero, Option.some.injEq] at h
      subst h
      simp [printedLines, hb, hp]
    | succ n =>
      simp only [List.getElem?_cons_succ] at h
      simp [printedLines, ih (j + 1) n h]

theorem printedLines_set_new (r : Run) (j : Nat) (l : List Task) (i : Nat) (a b : Task)
    (h : l[i]? = some a) (hb : b.host = a.host) (ha : a.printed = false)
    (hp : b.printed = true) :
    (printedLines r j (l.set i b)).Perm (probeLine r (j + i) a.host :: printedLines r j l) := by
  induction l generalizing i j with
  | nil => simp at h
  | cons x xs ih =>
    cases i with
    | zero =>
      simp only [List.getElem?_cons_zero, Option.some.injEq] at h
      subst h
      simp [printedLines, hb, hp, ha]
    | succ n =>
      simp only [List.getElem?_cons_succ] at h
      have hrec := ih (j + 1) n h
      have hidx : j + 1 + n = j + (n + 1) := by omega
      rw [hidx] at hrec
      simp only [List.set_cons_succ, printedLines]
      split
      · exact (List.Perm.cons _ hrec).trans (List.Perm.swap _ _ _)
      · exact hrec

theorem resultsOk_set (r : Run) (j : Nat) (l : List Task) (i : Nat) (b : Task)
    (hl : resultsOk r j l)
    (hb : ∀ str err, b.pc = .report str err →
      (str, err) = checkCertificate (r.world (j + i)) r.thresholdDuration b.host) :
    resultsOk r j (l.set i b) := by
  induction l generalizing i j with
  | nil => simp [resultsOk]
  | cons x xs ih =>
    cases i with
    | zero => exact ⟨hb, hl.2⟩
    | succ n =>
      refine ⟨hl.1, ih (j + 1) n hl.2 ?_⟩
      have hidx : j + 1 + n = j + (n + 1) := by omega
      rw [hidx]; exact hb

theorem resultsOk_get (r : Run) (j : Nat) (l : List Task) (i : Nat) (t : Task)
    (hl : resultsOk r j l) (h : l[i]? = some t) (str : String) (err : Option GoError)
    (hpc : t.pc = .report str err) :
    (str, err) = checkCertificate (r.world (j + i)) r.thresholdDuration t.host := by
  induction l generalizing i j with
  | nil => simp at h
  | cons x xs ih =>
    cases i with
    | zero =>
      simp only [List.getElem?_cons_zero, Option.some.injEq] at h
      subst h
      exact hl.1 str err hpc
    | succ n =>
      simp only [List.getElem?_cons_succ] at h
      have := ih (j + 1) n hl.2 h
      have hidx : j + 1 + n = j + (n + 1) := by omega
      rw [hidx] at this; exact this

theorem printedLines_append_unprinted (r : Run) (j : Nat) (l : List Task) (t : Task)
    (ht : t.printed = false) : printedLines r j (l ++ [t]) = printedLines r j l := by
  induction l generalizing j with
  | nil => simp [printedLines, ht]
  | cons x xs ih => simp [printedLines, ih (j + 1)]

theorem resultsOk_append_check (r : Run) (j : Nat) (l : List Task) (h : String)
    (hl : resultsOk r j l) : resultsOk r j (l ++ [{ host := h, pc := .check }]) := by
  induction l generalizing j with
  | nil => exact ⟨fun _ _ hpc => by simp at hpc, trivial⟩
  | cons x xs ih => exact ⟨hl.1, ih (j + 1) hl.2⟩

theorem printedLines_all_exited (r : Run) (j : Nat) (l : List Task)
    (h : l.countP Task.running = 0) :
    printedLines r j l = expectedLines r j (l.map Task.host) := by
  induction l generalizing j with
  | nil => rfl
  | cons x xs ih =>
    rw [List.countP_cons] at h
    have hx : x.running = false := by
      cases hr : x.running with
      | false => rfl
      | true => simp [hr] at h
    have hxs : xs.countP Task.running = 0 := by omega
    have hp : x.printed = true := by
      unfold Task.running at hx
      unfold Task.printed
      cases hpc : x.pc <;> simp [hpc] at hx ⊢
    simp [printedLines, expectedLines, hp, ih (j + 1) hxs]

theorem expectedLines_length (r : Run) (j : Nat) (hosts : List String) :
    (expectedLines r j hosts).length = hosts.length := by
  induction hosts generalizing j with
  | nil => rfl
  | cons h hs ih => simp [expectedLines, ih (j + 1)]


/-! ## Scheduler: the invariant -/

theorem inv_init (r : Run) (hosts : List String) : Inv r hosts (initSched hosts) :=
  { hosts_eq := rfl
    ch_eq := rfl
    ch_le := Nat.zero_le _
    wg_eq := rfl
    out := List.Perm.refl _
    results := trivial
    urls_ne := fun h => by rcases h with h | h <;> cases h
    ret := fun h => by cases h }

theorem stepsLeft_init (hosts : List String) :
    stepsLeft (initSched hosts) = 7 * hosts.length + 1 := by
  simp [stepsLeft, initSched, mainWeight]

theorem inv_mainStep (r : Run) (hosts : List String) (s t : Sched) (hinv : Inv r hosts s)
    (hstep : mainStep s = some t) : Inv r hosts t ∧ stepsLeft t + 1 = stepsLeft s := by
  obtain ⟨pc, urls, ch, wg, tasks, out⟩ := s
  obtain ⟨h1, h2, h3, h4, h5, h6, h7, h8⟩ := hinv
  simp only [inFlight] at h1 h2 h3 h4 h5 h6 h7 h8
  cases pc with
  | send =>
    cases urls with
    | nil =>
      simp only [mainStep] at hstep
      split at hstep
      · rename_i hwg
        simp only [Option.some.injEq] at hstep
        subst hstep
        refine ⟨⟨h1, ?_, h3, ?_, h5, h6, ?_, ?_⟩, ?_⟩
        · simpa [inFlight, mainSlot] using h2
        · simpa [mainCount] using h4
        · intro h; rcases h with h | h <;> cases h
        · intro _; exact ⟨rfl, hwg⟩
        · simp only [stepsLeft, mainWeight, List.length_nil]; omega
      · cases hstep
    | cons u rest =>
      simp only [mainStep] at hstep
      split at hstep
      · rename_i hch
        simp only [Option.some.injEq] at hstep
        subst hstep
        refine ⟨⟨h1, ?_, ?_, ?_, h5, h6, ?_, ?_⟩, ?_⟩
        · simp only [inFlight, mainSlot] at h2 ⊢; omega
        · exact hch
        · simpa [mainCount] using h4
        · intro _; simp
        · intro h; cases h
        · simp [stepsLeft, mainWeight]; omega
      · cases hstep
  | add =>
    simp only [mainStep, Option.some.injEq] at hstep
    subst hstep
    have hne : urls ≠ [] := h7 (Or.inl rfl)
    have hlen : 0 < urls.length := List.length_pos.mpr hne
    refine ⟨⟨h1, ?_, h3, ?_, h5, h6, ?_, ?_⟩, ?_⟩
    · simpa [inFlight, mainSlot] using h2
    · simp only [mainCount] at h4 ⊢; omega
    · intro _; exact hne
    · intro h; cases h
    · simp only [stepsLeft, mainWeight]; omega
  | spawn =>
    cases urls with
    | nil => simp [mainStep] at hstep
    | cons u rest =>
      simp only [mainStep, Option.some.injEq] at hstep
      subst hstep
      refine ⟨⟨?_, ?_, h3, ?_, ?_, ?_, ?_, ?_⟩, ?_⟩
      · simpa using h1
      · simp only [inFlight, mainSlot, List.countP_append, List.countP_cons, List.countP_nil,
          Task.holdsSlot] at h2 ⊢
        simpa using h2
      · simp only [mainCount, List.countP_append, List.countP_cons, List.countP_nil,
          Task.running] at h4 ⊢
        simpa using h4
      · simp only
        rw [printedLines_append_unprinted r 0 tasks { host := u, pc := .check } rfl]; exact h5
      · exact resultsOk_append_check r 0 tasks u h6
      · intro h; rcases h with h | h <;> cases h
      · intro h; cases h
      · simp only [stepsLeft, mainWeight, List.map_append, List.sum_append, List.map_cons,
          List.map_nil, List.sum_cons, List.sum_nil, Task.weight, List.length_cons]
        omega
  | returned => simp [mainStep] at hstep


theorem inv_fStep (r : Run) (hosts : List String) (s t : Sched) (i : Nat)
    (hinv : Inv r hosts s) (hstep : fStep r s i = some t) :
    Inv r hosts t ∧ stepsLeft t + 1 = stepsLeft s := by
  obtain ⟨pc, urls, ch, wg, tasks, out⟩ := s
  obtain ⟨h1, h2, h3, h4, h5, h6, h7, h8⟩ := hinv
  simp only [inFlight] at h1 h2 h3 h4 h5 h6 h7 h8
  simp only [fStep] at hstep
  cases hget : tasks[i]? with
  | none => simp [hget] at hstep
  | some a =>
    obtain ⟨host, apc⟩ := a
    simp only [hget] at hstep
    cases apc with
    | check =>
      simp only [Option.some.injEq] at hstep
      subst hstep
      have hc := countP_set_add Task.holdsSlot tasks i _
        { host := host, pc := .report (checkCertificate (r.world i) r.thresholdDuration host).1
            (checkCertificate (r.world i) r.thresholdDuration host).2 } hget
      have hr := countP_set_add Task.running tasks i _
        { host := host, pc := .report (checkCertificate (r.world i) r.thresholdDuration host).1
            (checkCertificate (r.world i) r.thresholdDuration host).2 } hget
      have hw := weight_set_add tasks i _
        { host := host, pc := .report (checkCertificate (r.world i) r.thresholdDuration host).1
            (checkCertificate (r.world i) r.thresholdDuration host).2 } hget
      simp only [Task.holdsSlot, Task.running, Task.weight, if_true] at hc hr hw
      refine ⟨⟨?_, ?_, h3, ?_, ?_, ?_, h7, h8⟩, ?_⟩
      · simp only; rw [map_host_set tasks i _
        (Task.mk host (.report (checkCertificate (r.world i) r.thresholdDuration host).1
        (checkCertificate (r.world i) r.thresholdDuration host).2)) hget rfl]; exact h1
      · simp only [inFlight]; omega
      · simp only; omega
      · simp only; rw [printedLines_set_same r 0 tasks i _
        (Task.mk host (.report (checkCertificate (r.world i) r.thresholdDuration host).1
        (checkCertificate (r.world i) r.thresholdDuration host).2)) hget rfl rfl]; exact h5
      · apply resultsOk_set r 0 tasks i _ h6
        intro str err hpc
        simp only [TaskPc.report.injEq] at hpc
        rw [Nat.zero_add, ← hpc.1, ← hpc.2]
      · simp only [stepsLeft]; omega
    | report str err =>
      simp only [Option.some.injEq] at hstep
      subst hstep
      have hc := countP_set_add Task.holdsSlot tasks i _ { host := host, pc := .recv } hget
      have hr := countP_set_add Task.running tasks i _ { host := host, pc := .recv } hget
      have hw := weight_set_add tasks i _ { host := host, pc := .recv } hget
      simp only [Task.holdsSlot, Task.running, Task.weight, if_true] at hc hr hw
      have hres := resultsOk_get r 0 tasks i _ h6 hget str err rfl
      rw [Nat.zero_add] at hres
      simp only at hres
      have hline : reportLine host str err = probeLine r (0 + i) host := by
        unfold probeLine
        rw [Nat.zero_add, ← hres]
      refine ⟨⟨?_, ?_, h3, ?_, ?_, ?_, h7, h8⟩, ?_⟩
      · simp only; rw [map_host_set tasks i _ { host := host, pc := .recv } hget rfl]; exact h1
      · simp only [inFlight]; omega
      · simp only; omega
      · simp only
        rw [hline]
        have hnew := printedLines_set_new r 0 tasks i _ { host := host, pc := .recv } hget
          rfl rfl rfl
        exact (List.perm_append_singleton _ _).trans ((List.Perm.cons _ h5).trans hnew.symm)
      · apply resultsOk_set r 0 tasks i _ h6
        intro str2 err2 hpc
        simp at hpc
      · simp only [stepsLeft]; omega
    | recv =>
      simp only at hstep
      split at hstep
      · rename_i hpos
        simp only [Option.some.injEq] at hstep
        subst hstep
        have hc := countP_set_add Task.holdsSlot tasks i _ { host := host, pc := .done } hget
        have hr := countP_set_add Task.running tasks i _ { host := host, pc := .done } hget
        have hw := weight_set_add tasks i _ { host := host, pc := .done } hget
        simp only [Task.holdsSlot, Task.running, Task.weight, if_true] at hc hr hw
        refine ⟨⟨?_, ?_, ?_, ?_, ?_, ?_, h7, h8⟩, ?_⟩
        · simp only; rw [map_host_set tasks i _ { host := host, pc := .done } hget rfl]; exact h1
        · simp only [inFlight]
          simp only [Bool.false_eq_true, if_false] at hc
          omega
        · simp only; omega
        · simp only; omega
        · simp only; rw [printedLines_set_same r 0 tasks i _ { host := host, pc := .done } hget rfl rfl]; exact h5
        · apply resultsOk_set r 0 tasks i _ h6
          intro str2 err2 hpc
          simp at hpc
        · simp only [stepsLeft]; omega
      · cases hstep
    | done =>
      simp only at hstep
      split at hstep
      · rename_i hpos
        simp only [Option.some.injEq] at hstep
        subst hstep
        have hc := countP_set_add Task.holdsSlot tasks i _ { host := host, pc := .exited } hget
        have hr := countP_set_add Task.running tasks i _ { host := host, pc := .exited } hget
        have hw := weight_set_add tasks i _ { host := host, pc := .exited } hget
        simp only [Task.holdsSlot, Task.running, Task.weight, if_true, Bool.false_eq_true,
          if_false] at hc hr hw
        refine ⟨⟨?_, ?_, h3, ?_, ?_, ?_, h7, ?_⟩, ?_⟩
        · simp only; rw [map_host_set tasks i _ { host := host, pc := .exited } hget rfl]; exact h1
        · simp only [inFlight]; omega
        · simp only; omega
        · simp only; rw [printedLines_set_same r 0 tasks i _ { host := host, pc := .exited } hget rfl rfl]; exact h5
        · apply resultsOk_set r 0 tasks i _ h6
          intro str2 err2 hpc
          simp at hpc
        · intro hret
          have := (h8 hret).2
          omega
        · simp only [stepsLeft]; omega
      · cases hstep
    | exited => simp at hstep


theorem inv_step (r : Run) (hosts : List String) (s t : Sched) (a : Action)
    (hinv : Inv r hosts s) (hstep : step r s a = some t) :
    Inv r hosts t ∧ stepsLeft t + 1 = stepsLeft s := by
  cases a with
  | main => exact inv_mainStep r hosts s t hinv hstep
  | task i => exact inv_fStep r hosts s t i hinv hstep

theorem inv_exec (r : Run) (hosts : List String) (sched : List Action) (s t : Sched)
    (hinv : Inv r hosts s) (hexec : exec r s sched = some t) :
    Inv r hosts t ∧ stepsLeft t + sched.length = stepsLeft s := by
  induction sched generalizing s with
  | nil =>
    simp only [exec, Option.some.injEq] at hexec
    subst hexec
    exact ⟨hinv, rfl⟩
  | cons a as ih =>
    simp only [exec] at hexec
    cases hs : step r s a with
    | none => simp [hs] at hexec
    | some u =>
      simp only [hs] at hexec
      have h1 := inv_step r hosts s u a hinv hs
      have h2 := ih u h1.1 hexec
      refine ⟨h2.1, ?_⟩
      simp only [List.length_cons]
      omega

theorem exec_append (r : Run) (s t : Sched) (as bs : List Action)
    (h : exec r s as = some t) : exec r s (as ++ bs) = exec r t bs := by
  induction as generalizing s with
  | nil =>
    simp only [exec, Option.some.injEq] at h
    subst h; rfl
  | cons a as ih =>
    simp only [exec, List.cons_append] at h ⊢
    cases hs : step r s a with
    | none => simp [hs] at h
    | some u =>
      simp only [hs] at h ⊢
      exact ih u h

theorem exists_task_of_countP_pos (p : Task → Bool) (l : List Task) (h : 0 < l.countP p) :
    ∃ (i : Nat) (a : Task), l[i]? = some a ∧ p a = true := by
  obtain ⟨a, ha, hp⟩ := List.countP_pos_iff.mp h
  obtain ⟨i, hi⟩ := List.mem_iff_getElem?.mp ha
  exact ⟨i, a, hi, hp⟩

theorem holdsSlot_le_inFlight (s : Sched) (i : Nat) (a : Task) (h : s.tasks[i]? = some a)
    (hp : a.holdsSlot = true) : 0 < inFlight s := by
  unfold inFlight
  exact List.countP_pos_iff.mpr ⟨a, List.getElem?_mem h, hp⟩

theorem running_le_count (s : Sched) (i : Nat) (a : Task) (h : s.tasks[i]? = some a)
    (hp : a.running = true) : 0 < s.tasks.countP Task.running :=
  List.countP_pos_iff.mpr ⟨a, List.getElem?_mem h, hp⟩

/-- A goroutine that has not ended can take its next step. -/
theorem fStep_enabled (r : Run) (hosts : List String) (s : Sched) (i : Nat) (a : Task)
    (hinv : Inv r hosts s) (h : s.tasks[i]? = some a) (hrun : a.running = true) :
    ∃ t, fStep r s i = some t := by
  obtain ⟨host, apc⟩ := a
  cases apc with
  | check => simp [fStep, h]
  | report str err => simp [fStep, h]
  | recv =>
    have h1 := holdsSlot_le_inFlight s i _ h rfl
    have h2 := hinv.ch_eq
    have h3 : 0 < s.ch := by omega
    simp [fStep, h, h3]
  | done =>
    have h1 := running_le_count s i _ h rfl
    have h2 := hinv.wg_eq
    have h3 : 0 < s.wg := by omega
    simp [fStep, h, h3]
  | exited => simp [Task.running] at hrun

/-- The program never deadlocks: until `main` has returned from `wg.Wait()`, `main` or
some goroutine can take a step. -/
theorem progress (r : Run) (hosts : List String) (s : Sched) (hinv : Inv r hosts s)
    (hpc : s.pc ≠ .returned) : ∃ a t, step r s a = some t := by
  cases hp : s.pc with
  | send =>
    cases hu : s.urls with
    | nil =>
      by_cases hwg : s.wg = 0
      · exact ⟨.main, _, by simp [step, mainStep, hp, hu, hwg]; rfl⟩
      · have h2 := hinv.wg_eq
        have h3 : 0 < s.tasks.countP Task.running := by
          rw [hp] at h2; simp only [mainCount] at h2; omega
        obtain ⟨i, a, hi, ha⟩ := exists_task_of_countP_pos _ _ h3
        obtain ⟨t, ht⟩ := fStep_enabled r hosts s i a hinv hi ha
        exact ⟨.task i, t, ht⟩
    | cons u rest =>
      by_cases hch : s.ch < maxConcurrentProcs
      · exact ⟨.main, _, by simp [step, mainStep, hp, hu, hch]; rfl⟩
      · have h2 := hinv.ch_eq
        have h3 : 0 < inFlight s := by
          rw [hp] at h2; simp only [mainSlot] at h2
          have : 0 < maxConcurrentProcs := by decide
          omega
        obtain ⟨i, a, hi, ha⟩ := exists_task_of_countP_pos _ _ h3
        have hrun : a.running = true := by
          obtain ⟨host, apc⟩ := a
          cases apc <;> simp [Task.holdsSlot, Task.running] at ha ⊢
        obtain ⟨t, ht⟩ := fStep_enabled r hosts s i a hinv hi hrun
        exact ⟨.task i, t, ht⟩
  | add => exact ⟨.main, _, by simp [step, mainStep, hp]; rfl⟩
  | spawn =>
    have hne := hinv.urls_ne (Or.inr hp)
    cases hu : s.urls with
    | nil => exact absurd hu hne
    | cons u rest => exact ⟨.main, _, by simp [step, mainStep, hp, hu]; rfl⟩
  | returned => exact absurd hp hpc

/-- From every state that satisfies the invariant some interleaving leads `main` to
return from `wg.Wait()`. -/
theorem reaches_returned (r : Run) (hosts : List String) (n : Nat) (s : Sched)
    (hinv : Inv r hosts s) (hn : stepsLeft s ≤ n) :
    ∃ sched t, exec r s sched = some t ∧ t.pc = .returned := by
  induction n generalizing s with
  | zero =>
    by_cases hpc : s.pc = .returned
    · exact ⟨[], s, rfl, hpc⟩
    · obtain ⟨a, t, ht⟩ := progress r hosts s hinv hpc
      have := (inv_step r hosts s t a hinv ht).2
      omega
  | succ n ih =>
    by_cases hpc : s.pc = .returned
    · exact ⟨[], s, rfl, hpc⟩
    · obtain ⟨a, t, ht⟩ := progress r hosts s hinv hpc
      have h1 := inv_step r hosts s t a hinv ht
      obtain ⟨sched, u, hu, hret⟩ := ih t h1.1 (by omega)
      exact ⟨a :: sched, u, by simp [exec, ht, hu], hret⟩

/-- When `main` has returned, the output is a rearrangement of one line per host. -/
theorem output_when_returned (r : Run) (hosts : List String) (s : Sched)
    (hinv : Inv r hosts s) (hret : s.pc = .returned) :
    s.stdout.Perm (expectedLines r 0 hosts) := by
  obtain ⟨hurls, hwg⟩ := hinv.ret hret
  have h4 := hinv.wg_eq
  have hcount : s.tasks.countP Task.running = 0 := by
    rw [hwg] at h4; omega
  have h1 := hinv.hosts_eq
  rw [hurls, List.append_nil] at h1
  rw [h1, ← printedLines_all_exited r 0 s.tasks hcount]
  exact hinv.out


/-- C3: for every host list and every assignment of probe outcomes to the goroutines,
in every interleaving, once `main` has returned from `wg.Wait()` the output consists of
exactly one line per entry of the host list, the line reporting that entry's own probe
(a rearrangement of the lines in launch order), so the number of lines equals the number
of hosts. The program cannot deadlock before that point, no interleaving is longer
than `7 * hosts.length + 1` steps, and some interleaving does reach the return. -/
theorem scheduler_delivers_one_line_per_host (r : Run) (hosts : List String) :
    (∀ sched s, exec r (initSched hosts) sched = some s → s.pc = .returned →
      s.stdout.Perm (expectedLines r 0 hosts) ∧ s.stdout.length = hosts.length) ∧
    (∀ sched s, exec r (initSched hosts) sched = some s → s.pc ≠ .returned →
      ∃ a t, step r s a = some t) ∧
    (∀ sched s, exec r (initSched hosts) sched = some s →
      sched.length ≤ 7 * hosts.length + 1) ∧
    (∃ sched s, exec r (initSched hosts) sched = some s ∧ s.pc = .returned) := by
  refine ⟨?_, ?_, ?_, ?_⟩
  · intro sched s hexec hret
    have hinv := (inv_exec r hosts sched _ s (inv_init r hosts) hexec).1
    have hperm := output_when_returned r hosts s hinv hret
    exact ⟨hperm, by rw [hperm.length_eq, expectedLines_length]⟩
  · intro sched s hexec hpc
    exact progress r hosts s (inv_exec r hosts sched _ s (inv_init r hosts) hexec).1 hpc
  · intro sched s hexec
    have h := (inv_exec r hosts sched _ s (inv_init r hosts) hexec).2
    rw [stepsLeft_init] at h
    omega
  · exact reaches_returned r hosts _ _ (inv_init r hosts) (Nat.le_refl _)

theorem scheduler_delivers_one_line_per_host_witness :
    exec sampleRun (initSched ["good.example", "down.example"]) sampleSchedule =
      some sampleFinal ∧
    sampleFinal.pc = .returned ∧
    sampleFinal.stdout.Perm (expectedLines sampleRun 0 ["good.example", "down.example"]) ∧
    sampleFinal.stdout.length = 2 :=
  ⟨by decide, rfl,
    (scheduler_delivers_one_line_per_host sampleRun ["good.example", "down.example"]).1
      sampleSchedule sampleFinal (by decide) rfl⟩

/-- C4: in every state the scheduler can reach, for every host list, every assignment
of probe outcomes and every interleaving, the number of goroutines that have been
launched and have not yet received from the channel is at most
`maxConcurrentProcs = 4`; it equals the number of elements in the channel, less the
one `main` has sent for a goroutine it is about to launch. -/
theorem inFlight_le_maxConcurrentProcs (r : Run) (hosts : List String)
    (sched : List Action) (s : Sched)
    (hexec : exec r (initSched hosts) sched = some s) :
    inFlight s ≤ maxConcurrentProcs ∧ maxConcurrentProcs = 4 ∧
    inFlight s + mainSlot s.pc = s.ch := by
  have hinv := (inv_exec r hosts sched _ s (inv_init r hosts) hexec).1
  have h1 := hinv.ch_eq
  have h2 := hinv.ch_le
  exact ⟨by omega, rfl, h1.symm⟩

theorem inFlight_le_maxConcurrentProcs_witness :
    exec sampleRun
        (initSched ["a.example", "b.example", "c.example", "d.example", "e.example"])
        (List.replicate 12 .main) = some sampleBusy ∧
    inFlight sampleBusy ≤ maxConcurrentProcs :=
  ⟨by decide,
    (inFlight_le_maxConcurrentProcs sampleRun
      ["a.example", "b.example", "c.example", "d.example", "e.example"]
      (List.replicate 12 .main) sampleBusy (by decide)).1⟩

/-- The bound of C4 is attained: with four goroutines in flight `main` is blocked on
its send until one of them has received from the channel. -/
theorem main_blocked_at_four :
    inFlight sampleBusy = 4 ∧ mainStep sampleBusy = none ∧
    exec sampleRun sampleBusy [.task 2, .task 2, .task 2, .main, .main, .main] ≠ none := by
  decide

end Certmon
